import Mathlib

/-!
# Verification of the Ray persistent state machine core

A shallow embedding of the Ray key-value service's PSM core
(`src/server/journal_service.rs`, `machine_service.rs`, `snapshot_service.rs`,
`storage_machine.rs`, `directory_journal.rs`, `util.rs`), together with proofs
about the embedded definitions.

Bytes are modelled as natural numbers (writers only ever emit values `< 256`);
machine integers are `Nat` with explicit `% 2 ^ w` where overflow matters.
Fallible operations return `Option` (with `none` standing for the Rust error /
`bail!` path); operations that `assert!`/`panic` are also modelled returning
`Option`, `none` standing for the panic.
-/

namespace Ray

/-- Byte strings (each entry is a byte value; the program only produces `< 256`). -/
abbrev Bytes := List Nat

/-! ## Little-endian integer encodings (`byteorder` crate)

`write_u32::<LittleEndian>` / `write_u64::<LittleEndian>` and the matching
reads, as used by `journal_service.rs`, `snapshot_service.rs`,
`storage_machine.rs` and `directory_journal.rs`. -/

/-- `write_u32::<LittleEndian>`: four bytes, least significant first. -/
def u32leBytes (n : Nat) : Bytes :=
  [n % 256, n / 256 % 256, n / 256 ^ 2 % 256, n / 256 ^ 3 % 256]

/-- `write_u64::<LittleEndian>`: eight bytes, least significant first. -/
def u64leBytes (n : Nat) : Bytes :=
  [n % 256, n / 256 % 256, n / 256 ^ 2 % 256, n / 256 ^ 3 % 256,
   n / 256 ^ 4 % 256, n / 256 ^ 5 % 256, n / 256 ^ 6 % 256, n / 256 ^ 7 % 256]

/-- `read_u32::<LittleEndian>` from the first four bytes. -/
def readU32le (b : Bytes) : Nat :=
  b.getD 0 0 + 256 * b.getD 1 0 + 256 ^ 2 * b.getD 2 0 + 256 ^ 3 * b.getD 3 0

/-- `read_u64::<LittleEndian>` from the first eight bytes. -/
def readU64le (b : Bytes) : Nat :=
  b.getD 0 0 + 256 * b.getD 1 0 + 256 ^ 2 * b.getD 2 0 + 256 ^ 3 * b.getD 3 0 +
  256 ^ 4 * b.getD 4 0 + 256 ^ 5 * b.getD 5 0 + 256 ^ 6 * b.getD 6 0 +
  256 ^ 7 * b.getD 7 0

/-! ## Protobuf wire format of `SetRequest` (prost)

The KV mutation `proto::SetRequest { key: bytes = 1, value: bytes = 2 }` is
(de)serialized by prost.  prost emits field 1 (tag byte `0x0A`) and field 2
(tag byte `0x12`) in order, each as a varint byte length followed by the raw
bytes, skipping fields equal to the default (the empty byte string). -/

/-- A `proto::SetRequest` message. -/
structure SetRequest where
  key : Bytes
  value : Bytes
deriving DecidableEq, Repr

/-- LEB128-style varint encoding used by protobuf; `fuel` bounds the
recursion (each step divides the value by 128, so any `fuel` with
`n < 128 ^ (fuel + 1)` is enough). -/
def varintBytesAux (fuel n : Nat) : Bytes :=
  match fuel with
  | 0 => [n % 128]
  | fuel + 1 =>
    if n < 128 then [n]
    else (n % 128 + 128) :: varintBytesAux fuel (n / 128)

/-- LEB128-style varint encoding used by protobuf. -/
def varintBytes (n : Nat) : Bytes :=
  varintBytesAux n n

/-- Varint decoding: returns the value and the remaining bytes. -/
def parseVarint : Bytes → Option (Nat × Bytes)
  | [] => none
  | b :: rest =>
    if b < 128 then some (b, rest)
    else
      match parseVarint rest with
      | none => none
      | some (n, r) => some ((b - 128) + 128 * n, r)

/-- prost encoding of one length-delimited field: tag byte, varint length, payload. -/
def encodeLenField (tag : Nat) (payload : Bytes) : Bytes :=
  tag :: varintBytes payload.length ++ payload

/-- prost encoding of a `SetRequest`: field 1 then field 2, defaults skipped. -/
def encodeSet (m : SetRequest) : Bytes :=
  (if m.key = [] then [] else encodeLenField 10 m.key) ++
  (if m.value = [] then [] else encodeLenField 18 m.value)

/-- `Message::encoded_len` for a `SetRequest`. -/
def encodedLenSet (m : SetRequest) : Nat := (encodeSet m).length

/-- One step of prost decoding: skip over a value of the given wire type,
returning what is left of the buffer (`none` on truncation or a bad type). -/
def skipWire (wireType : Nat) (b : Bytes) : Option Bytes :=
  match wireType with
  | 0 => (parseVarint b).map (·.2)
  | 1 => if 8 ≤ b.length then some (b.drop 8) else none
  | 2 =>
    match parseVarint b with
    | none => none
    | some (len, r) => if len ≤ r.length then some (r.drop len) else none
  | 5 => if 4 ≤ b.length then some (b.drop 4) else none
  | _ => none

/-- prost decoding of a `SetRequest` from a buffer.  Fields may appear in any
order and repeatedly (last occurrence wins); unknown fields are skipped;
truncated buffers are an error.  `fuel` bounds the recursion (the byte budget
suffices since every step consumes at least the tag byte). -/
def decodeSetAux (fuel : Nat) (acc : SetRequest) (b : Bytes) : Option SetRequest :=
  match fuel with
  | 0 => match b with | [] => some acc | _ => none
  | fuel + 1 =>
    match b with
    | [] => some acc
    | _ =>
      match parseVarint b with
      | none => none
      | some (tag, r) =>
        let fieldNo := tag / 8
        let wireType := tag % 8
        if wireType = 2 then
          match parseVarint r with
          | none => none
          | some (len, r2) =>
            if len ≤ r2.length then
              let payload := r2.take len
              let rest := r2.drop len
              if fieldNo = 1 then decodeSetAux fuel { acc with key := payload } rest
              else if fieldNo = 2 then decodeSetAux fuel { acc with value := payload } rest
              else decodeSetAux fuel acc rest
            else none
        else
          match skipWire wireType r with
          | none => none
          | some rest => decodeSetAux fuel acc rest

/-- `proto::SetRequest::decode` (prost). -/
def decodeSet (b : Bytes) : Option SetRequest :=
  decodeSetAux b.length { key := [], value := [] } b

/-! ## The KV machine (`storage_machine.rs`)

`StorageMachine` holds a `HashMap<Box<[u8]>, Box<[u8]>>`.  The map is
modelled as its association list in iteration order: `HashMap` iteration
order is arbitrary, so every list with pairwise distinct keys is a possible
in-memory state of the same map contents. -/

/-- The `StorageMachine`: key/value entries in the map's iteration order. -/
abbrev StorageMachine := List (Bytes × Bytes)

/-- `HashMap::get(query)`. -/
def mapLookup (m : StorageMachine) (k : Bytes) : Option Bytes :=
  match m with
  | [] => none
  | (k2, v) :: rest => if k2 = k then some v else mapLookup rest k

/-- `HashMap::insert(key, value)`: replaces the value of an existing key,
otherwise adds the entry. -/
def mapInsert (m : StorageMachine) (k v : Bytes) : StorageMachine :=
  match m with
  | [] => [(k, v)]
  | (k2, v2) :: rest => if k2 = k then (k, v) :: rest else (k2, v2) :: mapInsert rest k v

/-- `StorageMachine::apply_mutation`: insert/overwrite. -/
def applyMutation (m : StorageMachine) (mutation : SetRequest) : StorageMachine :=
  mapInsert m mutation.key mutation.value

/-- `StorageMachine::query_state`: look the key up, defaulting to empty bytes. -/
def queryState (m : StorageMachine) (query : Bytes) : Bytes :=
  (mapLookup m query).getD []

/-- `StorageMachine::write_snapshot`: for each entry, a `u32` little-endian
length followed by the prost encoding of the `SetRequest`; `none` models the
`assert!(len >> 32 == 0)` panic. -/
def writeSnapshotMachine (m : StorageMachine) : Option Bytes :=
  match m with
  | [] => some []
  | (k, v) :: rest =>
    let set : SetRequest := { key := k, value := v }
    let len := encodedLenSet set
    if len >>> 32 = 0 then
      match writeSnapshotMachine rest with
      | none => none
      | some tail => some (u32leBytes len ++ encodeSet set ++ tail)
    else none

/-- `StorageMachine::from_snapshot`, one record per step: a 4-byte length
(end of input before the first byte is a clean stop, a torn length or a short
record is an error), the record decoded as a `SetRequest` and inserted.
`fuel` bounds the recursion; each step consumes at least four bytes. -/
def fromSnapshotAux (fuel : Nat) (machine : StorageMachine) (b : Bytes) :
    Option StorageMachine :=
  match fuel with
  | 0 => match b with | [] => some machine | _ => none
  | fuel + 1 =>
    match b with
    | [] => some machine
    | _ =>
      if b.length < 4 then none
      else
        let len := readU32le b
        let rest := b.drop 4
        if len ≤ rest.length then
          match decodeSet (rest.take len) with
          | none => none
          | some set => fromSnapshotAux fuel (applyMutation machine set) (rest.drop len)
        else none

/-- `StorageMachine::from_snapshot`. -/
def fromSnapshotMachine (b : Bytes) : Option StorageMachine :=
  fromSnapshotAux b.length [] b

/-! ## Journal blob encoding (`journal_service.rs`)

`JournalService::write_mutation` builds the blob (`u64` little-endian epoch,
then the prost payload) and hands it to `JournalWriter::append_blob`, which
prepends the `u32` little-endian blob length.
`JournalServiceRestorer::decode_blob` is the inverse used by recovery. -/

/-- `JournalService::write_mutation`: the blob bytes appended for one
mutation at the given epoch. -/
def writeMutationBlob (m : SetRequest) (epoch : Nat) : Bytes :=
  u64leBytes epoch ++ encodeSet m

/-- `DirectoryJournalWriter::append_blob`: the bytes added to the journal
file; `none` models the `assert!(blob.len() >> 32 == 0)` panic. -/
def appendBlobBytes (blob : Bytes) : Option Bytes :=
  if blob.length >>> 32 = 0 then some (u32leBytes blob.length ++ blob) else none

/-- `JournalServiceRestorer::decode_blob` for the KV machine: blobs shorter
than 9 bytes are rejected, then the first 8 bytes are the epoch and the rest
the prost-encoded mutation. -/
def decodeBlobSet (blob : Bytes) : Option (SetRequest × Nat) :=
  if blob.length < 9 then none
  else
    match decodeSet (blob.drop 8) with
    | none => none
    | some m => some (m, readU64le blob)

/-! ## Journal recovery (`JournalServiceRestorer::restore`)

The restore loop is modelled over the decoded blob stream (pairs of mutation
and epoch); blob decoding itself is `decodeBlobSet` above.  The model is
generic in the mutation type, as the Rust code is generic in the machine. -/

/-- `JournalServiceRestorer::validate_blob_epoch` (`true` = `Ok`). -/
def validateBlobEpoch (epoch snapshotEpoch : Nat) (lastEpoch : Option Nat) : Bool :=
  if (lastEpoch.map (fun last => last + 1 != epoch)).getD false then false
  else if lastEpoch = none && decide (epoch > snapshotEpoch + 1) then false
  else true

/-- The blob loop of `restore`: validates every epoch, and emits a proposal
for each blob whose epoch exceeds the snapshot epoch.  Returns the emitted
proposals and the final `last_epoch`; `none` is the recovery error. -/
def restoreAux {U : Type} (snapshotEpoch : Nat) (lastEpoch : Option Nat) :
    List (U × Nat) → Option (List (U × Nat) × Option Nat)
  | [] => some ([], lastEpoch)
  | (m, epoch) :: rest =>
    if validateBlobEpoch epoch snapshotEpoch lastEpoch then
      match restoreAux snapshotEpoch (some epoch) rest with
      | none => none
      | some (props, last) =>
        some ((if epoch > snapshotEpoch then (m, epoch) :: props else props), last)
    else none

/-- `JournalServiceRestorer::restore` on the decoded blob stream: the loop,
then the final check `last_epoch > 0 && last_epoch < snapshot_epoch`.  On
success it returns the proposals sent and the value stored into the
`persisted_epoch` atomic (the atomic's first write). -/
def restoreJournal {U : Type} (snapshotEpoch : Nat) (blobs : List (U × Nat)) :
    Option (List (U × Nat) × Nat) :=
  match restoreAux snapshotEpoch none blobs with
  | none => none
  | some (props, lastOpt) =>
    let last := lastOpt.getD 0
    if last > 0 ∧ last < snapshotEpoch then none else some (props, last)

/-- The epoch chain the claim describes: each blob continues its predecessor,
and the first blob starts no later than `snapshot_epoch + 1`. -/
def validEpochChain (snapshotEpoch : Nat) (lastEpoch : Option Nat) : List Nat → Prop
  | [] => True
  | e :: rest =>
    (match lastEpoch with
     | some last => e = last + 1
     | none => e ≤ snapshotEpoch + 1) ∧ validEpochChain snapshotEpoch (some e) rest

/-! ## Directory journal reading (`util.rs`, `directory_journal.rs`)

A journal file is modelled by its unread byte suffix; the reader state is the
currently open file (if any) plus the contents of the files still queued
behind it.  IO errors and a fresh `DirectoryJournalWriter` are explicit
result constructors. -/

/-- Result of `try_read_u32`: clean end of file, IO error (torn 4-byte
length), or a value plus the unread rest of the file. -/
inductive ReadU32Res where
  | eof : ReadU32Res
  | ioError : ReadU32Res
  | val (n : Nat) (rest : Bytes) : ReadU32Res
deriving DecidableEq, Repr

/-- `util::try_read_u32`: one probe byte (end of input there is a clean
`None`), then three more bytes (end of input there is an error). -/
def tryReadU32 (b : Bytes) : ReadU32Res :=
  match b with
  | [] => .eof
  | _ =>
    if b.length < 4 then .ioError
    else .val (readU32le b) (b.drop 4)

/-- Result of `DirectoryJournalReader::read_len`. -/
inductive ReadLenRes where
  | lenOk (len : Nat) (cur : Bytes) (files : List Bytes) : ReadLenRes
  | endOfJournal : ReadLenRes
  | ioError : ReadLenRes
deriving DecidableEq, Repr

/-- The loop body of `DirectoryJournalReader::read_len` with a file open:
read the next blob length from it, transparently moving to the next file on
a clean end of file; a clean end of file with no files left ends the
journal. -/
def readLenList : Bytes → List Bytes → ReadLenRes
  | f, [] =>
    match tryReadU32 f with
    | .eof => .endOfJournal
    | .ioError => .ioError
    | .val n r => .lenOk n r []
  | f, g :: rest =>
    match tryReadU32 f with
    | .eof => readLenList g rest
    | .ioError => .ioError
    | .val n r => .lenOk n r (g :: rest)

/-- `DirectoryJournalReader::read_len`: with no current file the loop never
runs and the journal has ended, otherwise read from the current file. -/
def readLenDir (cur : Option Bytes) (files : List Bytes) : ReadLenRes :=
  match cur with
  | none => .endOfJournal
  | some f => readLenList f files

/-- Result of `DirectoryJournalReader::read_blob`: the next blob and the
advanced reader, the end of the journal (which hands back a fresh
`DirectoryJournalWriter`), or an IO error. -/
inductive ReadBlobRes where
  | blob (b : Bytes) (cur : Option Bytes) (files : List Bytes) : ReadBlobRes
  | endWriter : ReadBlobRes
  | ioError : ReadBlobRes
deriving DecidableEq, Repr

/-- `DirectoryJournalReader::read_blob`: read a length, then exactly that
many bytes from the current file (`read_exact`, so a short file is an
error). -/
def readBlobDir (cur : Option Bytes) (files : List Bytes) : ReadBlobRes :=
  match readLenDir cur files with
  | .endOfJournal => .endWriter
  | .ioError => .ioError
  | .lenOk len f fs =>
    if len ≤ f.length then .blob (f.take len) (some (f.drop len)) fs
    else .ioError

/-! ## Journal file disposal (`directory_journal.rs`)

`previous_files` is the queue of closed files, oldest first, each with its
blob count; the filesystem is a map from path to the outcome `remove_file`
would have. -/

/-- Outcome of `std::fs::remove_file` for a path. -/
inductive RemoveOutcome where
  | ok : RemoveOutcome
  | notFound : RemoveOutcome
  | otherError : RemoveOutcome
deriving DecidableEq, Repr

/-- `DirectoryJournalBase::dispose_oldest_blobs`: delete whole files from the
oldest end while the remaining budget covers a file's whole blob count; a
`NotFound` file counts as already removed; any other IO error aborts
(`none`).  Returns the remaining `previous_files`. -/
def disposeOldestBase (fs : Nat → RemoveOutcome) :
    List (Nat × Nat) → Nat → Option (List (Nat × Nat))
  | [], _ => some []
  | (path, count) :: rest, budget =>
    if count ≤ budget then
      match fs path with
      | .otherError => none
      | _ => disposeOldestBase fs rest (budget - count)
    else some ((path, count) :: rest)

/-- `DirectoryJournalWriter::dispose_oldest_blobs`: subtracts the open
file's blob count from the requested amount before delegating to the base;
asks for nothing when the request does not exceed that count. -/
def disposeOldestWriter (fs : Nat → RemoveOutcome) (currentFileBlobCount : Nat)
    (previousFiles : List (Nat × Nat)) (blobCount : Nat) : Option (List (Nat × Nat)) :=
  if blobCount > currentFileBlobCount then
    disposeOldestBase fs previousFiles (blobCount - currentFileBlobCount)
  else some previousFiles

/-! ## Journal actor batching (`JournalServiceBase::process_request_batch`
and the mutation branch of `JournalService::serve`) -/

/-- A `JournalServiceRequest`: a mutation plus the caller's oneshot notifier
(modelled by an identifier). -/
structure JRequest (U : Type) where
  mutation : U
  notify : Nat
deriving DecidableEq, Repr

/-- The drain loop body of `process_request_batch`: the current request is
pushed, then a further request is taken non-blockingly only while fewer than
`batch_size` have been processed and the queue still has one.  Returns the
batched mutations, their notifiers and the queue left behind. -/
def processBatchAux {U : Type} (batchSize : Nat) (request : JRequest U) :
    List (JRequest U) → Nat → List U × List Nat × List (JRequest U)
  | queue, processed =>
    if processed + 1 < batchSize then
      match queue with
      | [] => ([request.mutation], [request.notify], [])
      | q :: rest =>
        let (ms, ns, rem) := processBatchAux batchSize q rest (processed + 1)
        (request.mutation :: ms, request.notify :: ns, rem)
    else ([request.mutation], [request.notify], queue)

/-- `process_request_batch`: the first request was received blockingly, the
rest are drained from the currently queued requests. -/
def processRequestBatch {U : Type} (batchSize : Nat) (first : JRequest U)
    (queue : List (JRequest U)) : List U × List Nat × List (JRequest U) :=
  processBatchAux batchSize first queue 0

/-- Observable actions of one iteration of `JournalService::serve`. -/
inductive JEvent (U : Type) where
  | append (epoch : Nat) (mutation : U) : JEvent U
  | persistCall : JEvent U
  | storeEpoch (value : Nat) : JEvent U
  | notifyCaller (id : Nat) : JEvent U
  | sendSnapshot (epoch : Nat) (mutation : U) : JEvent U
  | sendMachine (epoch : Nat) (mutation : U) : JEvent U
deriving DecidableEq, Repr

/-- Is the event the `persist()` call? -/
def JEvent.isPersist {U : Type} : JEvent U → Bool
  | .persistCall => true
  | _ => false

/-- The successful mutation-batch path of one `serve` iteration, as the
sequence of its observable actions: append every blob, `persist()` once,
bump `persisted_epoch` by the batch length and store it (release), notify
every caller, then send each proposal to the snapshot and machine actors
(`send_proposal` sends to the snapshot actor first).  Returns the events and
the new `persisted_epoch`. -/
def serveBatchIteration {U : Type} (persistedEpoch : Nat) (mutations : List U)
    (notifiers : List Nat) : List (JEvent U) × Nat :=
  let proposals := mutations.enum.map (fun p => (p.2, persistedEpoch + 1 + p.1))
  let newEpoch := persistedEpoch + proposals.length
  (proposals.map (fun p => JEvent.append p.2 p.1) ++
     [JEvent.persistCall] ++
     [JEvent.storeEpoch newEpoch] ++
     notifiers.map JEvent.notifyCaller ++
     proposals.flatMap (fun p => [JEvent.sendSnapshot p.2 p.1, JEvent.sendMachine p.2 p.1]),
   newEpoch)

/-! ## Machine actor (`machine_service.rs`)

Generic in the machine, as the Rust code is: `apply` and `queryf` stand for
`Machine::apply_mutation` and `Machine::query_state`.  The deferred-query
`BinaryHeap` (a min-heap on `min_epoch`, ties in any order) is modelled as a
list kept sorted by `min_epoch`, whose head is the heap's top. -/

/-- A deferred `Query` with its reply sink (modelled by an identifier). -/
structure QueryItem (K : Type) where
  query : K
  minEpoch : Nat
  resultId : Nat
deriving DecidableEq, Repr

/-- Heap push: insert keeping the list sorted by `min_epoch`. -/
def pushQuery {K : Type} (item : QueryItem K) : List (QueryItem K) → List (QueryItem K)
  | [] => [item]
  | x :: xs =>
    if x.minEpoch ≤ item.minEpoch then x :: pushQuery item xs
    else item :: x :: xs

/-- A reply sent through a query's oneshot channel. -/
structure Reply (K S : Type) where
  resultId : Nat
  query : K
  minEpoch : Nat
  status : S
deriving DecidableEq, Repr

/-- The post-apply drain loop of `handle_proposal`: pop the heap while its
top's `min_epoch` is at most the current epoch, answering each popped query
against the current machine. -/
def drainQueue {A K S : Type} (queryf : A → K → S) (machine : A) (epoch : Nat) :
    List (QueryItem K) → List (QueryItem K) × List (Reply K S)
  | [] => ([], [])
  | x :: xs =>
    if x.minEpoch ≤ epoch then
      let (q, rs) := drainQueue queryf machine epoch xs
      (q, ⟨x.resultId, x.query, x.minEpoch, queryf machine x.query⟩ :: rs)
    else (x :: xs, [])

/-- The machine actor's state: the machine, the applied epoch, the deferred
query heap. -/
structure MState (A K : Type) where
  machine : A
  epoch : Nat
  queue : List (QueryItem K)

/-- `MachineService::handle_proposal`: `none` models the
`assert_eq!(epoch, self.epoch + 1)` panic; otherwise apply, bump the epoch,
and drain the heap. -/
def handleProposal {A U K S : Type} (apply : A → U → A) (queryf : A → K → S)
    (st : MState A K) (mutation : U) (epoch : Nat) :
    Option (MState A K × List (Reply K S)) :=
  if epoch = st.epoch + 1 then
    let machine := apply st.machine mutation
    let (queue, replies) := drainQueue queryf machine (st.epoch + 1) st.queue
    some (⟨machine, st.epoch + 1, queue⟩, replies)
  else none

/-- `MachineService::handle_query`: answer at once when caught up, defer
otherwise. -/
def handleQuery {A K S : Type} (queryf : A → K → S) (st : MState A K)
    (query : K) (minEpoch : Nat) (resultId : Nat) : MState A K × List (Reply K S) :=
  if st.epoch ≥ minEpoch then
    (st, [⟨resultId, query, minEpoch, queryf st.machine query⟩])
  else
    ({ st with queue := pushQuery ⟨query, minEpoch, resultId⟩ st.queue }, [])

/-- The two message kinds of the machine actor's request channel. -/
inductive MachineMsg (U K : Type) where
  | proposal (mutation : U) (epoch : Nat) : MachineMsg U K
  | query (q : K) (minEpoch : Nat) (resultId : Nat) : MachineMsg U K
deriving DecidableEq, Repr

/-- `MachineService::serve` over a finite message sequence, collecting every
reply sent; `none` models the epoch-assertion panic. -/
def runMachineService {A U K S : Type} (apply : A → U → A) (queryf : A → K → S)
    (st : MState A K) : List (MachineMsg U K) → Option (MState A K × List (Reply K S))
  | [] => some (st, [])
  | msg :: msgs =>
    match msg with
    | .proposal mutation epoch =>
      match handleProposal apply queryf st mutation epoch with
      | none => none
      | some (st2, replies) =>
        match runMachineService apply queryf st2 msgs with
        | none => none
        | some (stFinal, rest) => some (stFinal, replies ++ rest)
    | .query q minEpoch resultId =>
      let (st2, replies) := handleQuery queryf st q minEpoch resultId
      match runMachineService apply queryf st2 msgs with
      | none => none
      | some (stFinal, rest) => some (stFinal, replies ++ rest)

/-- The mutations of a message sequence's proposals, in arrival order. -/
def mutsOf {U K : Type} : List (MachineMsg U K) → List U
  | [] => []
  | .proposal mutation _ :: msgs => mutation :: mutsOf msgs
  | .query _ _ _ :: msgs => mutsOf msgs

/-! ## Snapshot files (`snapshot_service.rs`) -/

/-- `snapshot_service::write_snapshot` for the KV machine: a `u64`
little-endian epoch, then the machine dump. -/
def writeSnapshotFileKV (m : StorageMachine) (epoch : Nat) : Option Bytes :=
  match writeSnapshotMachine m with
  | none => none
  | some dump => some (u64leBytes epoch ++ dump)

/-- `snapshot_service::read_snapshot` for the KV machine: `read_u64` (an
error on fewer than 8 bytes), then `StorageMachine::from_snapshot`. -/
def readSnapshotFileKV (b : Bytes) : Option (StorageMachine × Nat) :=
  if b.length < 8 then none
  else
    match fromSnapshotMachine (b.drop 8) with
    | none => none
    | some m => some (m, readU64le b)

/-- Modelled from the spec: the snapshot layout the claim describes, "a
little-endian 8-bit epoch followed by the machine-serialized state dump" —
a single epoch byte before the dump.  Stated only to be compared with the
code's `writeSnapshotFileKV`. -/
def snapshotFileSpec8bit (epoch : Nat) (dump : Bytes) : Bytes :=
  epoch % 256 :: dump

/-! ## Observable KV operation runs (for the apply/query
indistinguishability claim) -/

/-- One client-visible KV operation. -/
inductive KvOp where
  | set (key value : Bytes) : KvOp
  | get (key : Bytes) : KvOp
deriving DecidableEq, Repr

/-- Run a sequence of operations against a machine, collecting every query
result (the only output a client can observe). -/
def runOps (m : StorageMachine) : List KvOp → List Bytes
  | [] => []
  | .set k v :: ops => runOps (applyMutation m ⟨k, v⟩) ops
  | .get k :: ops => queryState m k :: runOps m ops

/-- Two machine states are observationally equal when every query returns
the same bytes on both. -/
def machineObsEq (m1 m2 : StorageMachine) : Prop :=
  ∀ q : Bytes, queryState m1 q = queryState m2 q

/-! ## Byte-level lemmas -/

theorem u64leBytes_length (n : Nat) : (u64leBytes n).length = 8 := rfl

theorem readU32le_u32leBytes (n : Nat) (rest : Bytes) (h : n < 2 ^ 32) :
    readU32le (u32leBytes n ++ rest) = n := by
  simp only [u32leBytes, readU32le, List.cons_append, List.nil_append, List.getD_cons_zero,
    List.getD_cons_succ]
  omega

theorem readU64le_u64leBytes (n : Nat) (rest : Bytes) (h : n < 2 ^ 64) :
    readU64le (u64leBytes n ++ rest) = n := by
  simp only [u64leBytes, readU64le, List.cons_append, List.nil_append, List.getD_cons_zero,
    List.getD_cons_succ]
  omega

theorem u64leBytes_append_drop (n : Nat) (rest : Bytes) :
    (u64leBytes n ++ rest).drop 8 = rest := rfl

theorem parseVarint_varintBytesAux (fuel : Nat) :
    ∀ n rest, n < 128 ^ (fuel + 1) →
      parseVarint (varintBytesAux fuel n ++ rest) = some (n, rest) := by
  induction fuel with
  | zero =>
    intro n rest h
    have hn : n < 128 := by simpa using h
    simp [varintBytesAux, parseVarint, Nat.mod_eq_of_lt hn, hn]
  | succ f ih =>
    intro n rest h
    by_cases hn : n < 128
    · simp [varintBytesAux, parseVarint, hn]
    · rw [varintBytesAux, if_neg hn]
      have hdiv : n / 128 < 128 ^ (f + 1) := by
        rw [Nat.div_lt_iff_lt_mul (by omega : 0 < 128)]
        calc n < 128 ^ (f + 1 + 1) := h
          _ = 128 ^ (f + 1) * 128 := by ring
      simp only [List.cons_append, parseVarint]
      rw [if_neg (by omega)]
      simp only [List.append_eq]
      rw [ih (n / 128) rest hdiv]
      simp only [Option.some.injEq, Prod.mk.injEq]
      exact ⟨by omega, trivial⟩

theorem parseVarint_varintBytes (n : Nat) (rest : Bytes) :
    parseVarint (varintBytes n ++ rest) = some (n, rest) := by
  have hpow : n < 128 ^ (n + 1) := by
    calc n < 2 ^ n := Nat.lt_two_pow n
      _ ≤ 128 ^ n := Nat.pow_le_pow_left (by omega) n
      _ ≤ 128 ^ (n + 1) := Nat.pow_le_pow_right (by omega) (by omega)
  exact parseVarint_varintBytesAux n n rest hpow

/-! ## `SetRequest` codec lemmas -/

theorem decodeSetAux_nil (fuel : Nat) (acc : SetRequest) :
    decodeSetAux fuel acc [] = some acc := by
  cases fuel <;> rfl

theorem decodeSetAux_keyField (fuel : Nat) (acc : SetRequest) (k rest : Bytes)
    (hf : 1 ≤ fuel) :
    decodeSetAux fuel acc (encodeLenField 10 k ++ rest) =
      decodeSetAux (fuel - 1) { acc with key := k } rest := by
  obtain ⟨f, rfl⟩ : ∃ f, fuel = f + 1 := ⟨fuel - 1, by omega⟩
  simp only [encodeLenField, List.cons_append, List.append_assoc]
  rw [decodeSetAux]
  simp only [parseVarint, parseVarint_varintBytes, if_pos (by omega : (10 : Nat) < 128)]
  case x_1 => simp
  norm_num

theorem decodeSetAux_valueField (fuel : Nat) (acc : SetRequest) (v rest : Bytes)
    (hf : 1 ≤ fuel) :
    decodeSetAux fuel acc (encodeLenField 18 v ++ rest) =
      decodeSetAux (fuel - 1) { acc with value := v } rest := by
  obtain ⟨f, rfl⟩ : ∃ f, fuel = f + 1 := ⟨fuel - 1, by omega⟩
  simp only [encodeLenField, List.cons_append, List.append_assoc]
  rw [decodeSetAux]
  simp only [parseVarint, parseVarint_varintBytes, if_pos (by omega : (18 : Nat) < 128)]
  case x_1 => simp
  norm_num

theorem decodeSet_encodeSet (m : SetRequest) : decodeSet (encodeSet m) = some m := by
  obtain ⟨k, v⟩ := m
  by_cases hk : k = [] <;> by_cases hv : v = []
  · simp [decodeSet, encodeSet, hk, hv, decodeSetAux_nil]
  · simp only [decodeSet, encodeSet, hk, hv, if_pos, if_neg, List.nil_append, ite_true,
      ite_false]
    rw [← List.append_nil (encodeLenField 18 v)]
    rw [decodeSetAux_valueField _ _ _ _ (by simp [encodeLenField])]
    simp [decodeSetAux_nil, hk]
  · simp only [decodeSet, encodeSet, hk, hv, List.append_nil, ite_true, ite_false]
    rw [← List.append_nil (encodeLenField 10 k)]
    rw [decodeSetAux_keyField _ _ _ _ (by simp [encodeLenField])]
    simp [decodeSetAux_nil, hv]
  · simp only [decodeSet, encodeSet, hk, hv, ite_false]
    rw [decodeSetAux_keyField _ _ _ _ (by simp [encodeLenField])]
    rw [show encodeLenField 18 v = encodeLenField 18 v ++ [] from (List.append_nil _).symm]
    rw [decodeSetAux_valueField _ _ _ _ (by simp [encodeLenField, List.length_append]; omega)]
    simp [decodeSetAux_nil]

/-! ## C5: journal blob encode/decode -/

/-- C5, counterexample: the claim fails for a mutation whose serialized
payload is empty (a `SetRequest` with empty key and empty value): the blob
is the 8 epoch bytes alone, and `decode_blob` rejects every blob shorter
than 9 bytes, so encode-then-decode does not return the mutation. -/
theorem journal_blob_empty_payload_cex :
    encodeSet { key := [], value := [] } = [] ∧
    writeMutationBlob { key := [], value := [] } 5 = u64leBytes 5 ∧
    decodeBlobSet (writeMutationBlob { key := [], value := [] } 5) = none := by
  refine ⟨rfl, by simp [writeMutationBlob, encodeSet], ?_⟩
  simp [decodeBlobSet, writeMutationBlob, encodeSet, u64leBytes]

/-- C5, amended: for every mutation whose serialized payload is nonempty and
every epoch, the journal blob is the 8-byte little-endian epoch followed by
the payload, `append_blob` frames it with a 32-bit length prefix counting
`8 + |payload|`, and `decode_blob` returns the same mutation and epoch.
(For an empty payload the blob is 8 bytes and `decode_blob` rejects it.) -/
theorem journal_blob_roundtrip (m : SetRequest) (epoch : Nat)
    (hm : encodeSet m ≠ []) (he : epoch < 2 ^ 64)
    (hlen : 8 + (encodeSet m).length < 2 ^ 32) :
    writeMutationBlob m epoch = u64leBytes epoch ++ encodeSet m ∧
    (writeMutationBlob m epoch).length = 8 + (encodeSet m).length ∧
    appendBlobBytes (writeMutationBlob m epoch) =
      some (u32leBytes (8 + (encodeSet m).length) ++ writeMutationBlob m epoch) ∧
    decodeBlobSet (writeMutationBlob m epoch) = some (m, epoch) := by
  have hlength : (writeMutationBlob m epoch).length = 8 + (encodeSet m).length := by
    simp [writeMutationBlob, List.length_append, u64leBytes_length]
  refine ⟨rfl, hlength, ?_, ?_⟩
  · rw [appendBlobBytes, hlength, if_pos (by simp [Nat.shiftRight_eq_div_pow]; omega)]
  · have hge : ¬(writeMutationBlob m epoch).length < 9 := by
      rw [hlength]
      have : 0 < (encodeSet m).length := List.length_pos.mpr hm
      omega
    rw [decodeBlobSet, if_neg hge]
    rw [show writeMutationBlob m epoch = u64leBytes epoch ++ encodeSet m from rfl]
    rw [u64leBytes_append_drop, decodeSet_encodeSet, readU64le_u64leBytes _ _ he]

/-- C5, witness: the amended round trip at a concrete mutation and epoch. -/
theorem journal_blob_roundtrip_witness :
    decodeBlobSet (writeMutationBlob { key := [1], value := [2] } 7) =
      some ({ key := [1], value := [2] }, 7) :=
  (journal_blob_roundtrip { key := [1], value := [2] } 7 (by decide) (by decide)
    (by decide)).2.2.2

/-! ## Snapshot machine roundtrip lemmas (towards C7) -/

theorem fromSnapshotAux_empty (fuel : Nat) (acc : StorageMachine) :
    fromSnapshotAux fuel acc [] = some acc := by
  cases fuel <;> rfl

theorem u32leBytes_append_drop (n : Nat) (rest : Bytes) :
    (u32leBytes n ++ rest).drop 4 = rest := rfl

theorem fromSnapshotAux_record (fuel : Nat) (acc : StorageMachine) (s : SetRequest)
    (rest : Bytes) (hf : 1 ≤ fuel) (hlen : (encodeSet s).length < 2 ^ 32) :
    fromSnapshotAux fuel acc (u32leBytes (encodeSet s).length ++ encodeSet s ++ rest) =
      fromSnapshotAux (fuel - 1) (applyMutation acc s) rest := by
  obtain ⟨f, rfl⟩ : ∃ f, fuel = f + 1 := ⟨fuel - 1, by omega⟩
  have hb : u32leBytes (encodeSet s).length ++ encodeSet s ++ rest =
      u32leBytes (encodeSet s).length ++ (encodeSet s ++ rest) := by
    rw [List.append_assoc]
  rw [hb, fromSnapshotAux]
  have hcons : ∃ x xs, u32leBytes (encodeSet s).length ++ (encodeSet s ++ rest) = x :: xs :=
    ⟨_, _, rfl⟩
  obtain ⟨x, xs, hx⟩ := hcons
  rw [hx, ← hx]
  have hlength : (u32leBytes (encodeSet s).length ++ (encodeSet s ++ rest)).length =
      4 + (encodeSet s).length + rest.length := by
    simp [List.length_append, u32leBytes]
    omega
  rw [if_neg (by omega)]
  rw [readU32le_u32leBytes _ _ hlen, u32leBytes_append_drop]
  rw [if_pos (by simp [List.length_append])]
  rw [List.take_left, decodeSet_encodeSet, List.drop_left]
  · rfl
  · intro hcontra
    simp [u32leBytes] at hcontra

theorem writeSnapshotMachine_length (m : StorageMachine) (w : Bytes)
    (h : writeSnapshotMachine m = some w) : m.length ≤ w.length := by
  induction m generalizing w with
  | nil =>
    simp [writeSnapshotMachine] at h
    simp [← h]
  | cons e rest ih =>
    obtain ⟨k, v⟩ := e
    simp only [writeSnapshotMachine] at h
    by_cases hg : encodedLenSet { key := k, value := v } >>> 32 = 0
    · rw [if_pos hg] at h
      cases htail : writeSnapshotMachine rest with
      | none =>
        rw [htail] at h
        exact absurd h (by simp)
      | some tail =>
        rw [htail] at h
        have hw := Option.some.inj h
        subst hw
        have := ih tail htail
        simp [List.length_append, u32leBytes]
        omega
    · rw [if_neg hg] at h
      exact absurd h (by simp)


theorem fromSnapshotAux_writeSnapshot (m : StorageMachine) :
    ∀ (acc : StorageMachine) (fuel : Nat) (w : Bytes),
      writeSnapshotMachine m = some w → m.length ≤ fuel →
      fromSnapshotAux fuel acc w =
        some (m.foldl (fun a e => applyMutation a { key := e.1, value := e.2 }) acc) := by
  induction m with
  | nil =>
    intro acc fuel w h _
    simp only [writeSnapshotMachine, Option.some.injEq] at h
    subst h
    simp [fromSnapshotAux_empty]
  | cons e rest ih =>
    intro acc fuel w h hfuel
    obtain ⟨k, v⟩ := e
    simp only [writeSnapshotMachine] at h
    by_cases hg : encodedLenSet { key := k, value := v } >>> 32 = 0
    · rw [if_pos hg] at h
      cases htail : writeSnapshotMachine rest with
      | none =>
        rw [htail] at h
        exact absurd h (by simp)
      | some tail =>
        rw [htail] at h
        have hw := Option.some.inj h
        subst hw
        have hlen : (encodeSet { key := k, value := v }).length < 2 ^ 32 := by
          have hsh := hg
          rw [Nat.shiftRight_eq_div_pow] at hsh
          have hdiv : encodedLenSet { key := k, value := v } < 2 ^ 32 := by
            by_contra hc
            have : 1 ≤ encodedLenSet { key := k, value := v } / 2 ^ 32 :=
              (Nat.one_le_div_iff (by norm_num)).mpr (by omega)
            omega
          simpa [encodedLenSet] using hdiv
        rw [show encodedLenSet { key := k, value := v } =
          (encodeSet { key := k, value := v }).length from rfl]
        rw [fromSnapshotAux_record _ _ _ _ (by simp at hfuel; omega) hlen]
        rw [ih _ (fuel - 1) tail htail (by simp at hfuel; omega)]
        rfl
    · rw [if_neg hg] at h
      exact absurd h (by simp)

theorem mapInsert_notMem (acc : StorageMachine) (k v : Bytes)
    (h : ∀ e ∈ acc, e.1 ≠ k) : mapInsert acc k v = acc ++ [(k, v)] := by
  induction acc with
  | nil => rfl
  | cons e rest ih =>
    obtain ⟨k2, v2⟩ := e
    have hne : k2 ≠ k := h (k2, v2) (by simp)
    simp only [mapInsert, if_neg hne, List.cons_append, List.cons.injEq, true_and]
    exact ih (fun e he => h e (by simp [he]))

theorem foldl_applyMutation_disjoint (m : StorageMachine) :
    ∀ acc : StorageMachine, (m.map Prod.fst).Nodup →
      (∀ e ∈ acc, ∀ e2 ∈ m, e.1 ≠ e2.1) →
      m.foldl (fun a e => applyMutation a { key := e.1, value := e.2 }) acc = acc ++ m := by
  induction m with
  | nil => intro acc _ _; simp
  | cons e rest ih =>
    intro acc hnodup hdisj
    obtain ⟨k, v⟩ := e
    have hknotin : ∀ e2 ∈ rest, k ≠ e2.1 := by
      intro e2 he2
      have hhead := (List.nodup_cons.mp hnodup).1
      intro heq
      exact hhead (by simpa [heq] using List.mem_map_of_mem Prod.fst he2)
    rw [List.foldl_cons]
    rw [show applyMutation acc { key := k, value := v } = mapInsert acc k v from rfl]
    rw [mapInsert_notMem acc k v (fun e he => hdisj e he (k, v) (by simp))]
    rw [ih (acc ++ [(k, v)]) (List.nodup_cons.mp hnodup).2 ?disj]
    · simp
    case disj =>
      intro e he e2 he2
      rcases List.mem_append.mp he with hacc | hkv
      · exact hdisj e hacc e2 (by simp [he2])
      · have hekv : e = (k, v) := by simpa using hkv
        subst hekv
        exact hknotin e2 he2

/-! ## C7: snapshot write/read roundtrip -/

/-- C7: for every KV machine state (every association list with pairwise
distinct keys — that is, every iteration order the `HashMap` may expose)
whose snapshot write succeeds, reading the snapshot back yields a machine
whose key-to-value mapping equals the original's: the same `Option`-valued
lookup on every key (so an absent key stays absent and an empty-valued key
stays present with the empty value), and hence the same query results. -/
theorem storage_snapshot_roundtrip (m : StorageMachine) (w : Bytes)
    (hk : (m.map Prod.fst).Nodup) (hw : writeSnapshotMachine m = some w) :
    ∃ m2, fromSnapshotMachine w = some m2 ∧
      (∀ k, mapLookup m2 k = mapLookup m k) ∧
      ∀ q, queryState m2 q = queryState m q := by
  refine ⟨m, ?_, fun k => rfl, fun q => rfl⟩
  rw [fromSnapshotMachine]
  rw [fromSnapshotAux_writeSnapshot m [] w.length w hw (writeSnapshotMachine_length m w hw)]
  rw [foldl_applyMutation_disjoint m [] hk (by simp)]
  simp

/-- C7, witness: the roundtrip at a concrete one-entry machine. -/
theorem storage_snapshot_roundtrip_witness :
    ∃ m2, fromSnapshotMachine [6, 0, 0, 0, 10, 1, 1, 18, 1, 2] = some m2 ∧
      (∀ k, mapLookup m2 k = mapLookup [([1], [2])] k) ∧
      ∀ q, queryState m2 q = queryState [([1], [2])] q :=
  storage_snapshot_roundtrip [([1], [2])] [6, 0, 0, 0, 10, 1, 1, 18, 1, 2]
    (by decide) (by decide)

/-! ## C9: snapshot file header -/

/-- C9, counterexample: the snapshot header is not an 8-bit epoch.  At epoch
1 with an empty machine the code writes eight little-endian epoch bytes
before the dump, not the single byte the claim describes. -/
theorem snapshot_header_8bit_cex :
    writeSnapshotFileKV [] 1 = some [1, 0, 0, 0, 0, 0, 0, 0] ∧
    snapshotFileSpec8bit 1 [] = [1] ∧
    some ([1, 0, 0, 0, 0, 0, 0, 0] : Bytes) ≠ some ([1] : Bytes) := by
  refine ⟨rfl, rfl, by simp⟩

/-- C9, amended: every snapshot file is a little-endian **64-bit** (8-byte)
epoch followed by the machine-serialized state dump, and `read_snapshot`
decodes exactly that header (the first 8 bytes as the epoch) before the
machine state. -/
theorem snapshot_file_u64_roundtrip (m : StorageMachine) (epoch : Nat) (dump w : Bytes)
    (hk : (m.map Prod.fst).Nodup) (he : epoch < 2 ^ 64)
    (hd : writeSnapshotMachine m = some dump)
    (hw : writeSnapshotFileKV m epoch = some w) :
    w = u64leBytes epoch ++ dump ∧
    ∃ m2, readSnapshotFileKV w = some (m2, epoch) ∧
      ∀ q, queryState m2 q = queryState m q := by
  have hweq : w = u64leBytes epoch ++ dump := by
    rw [writeSnapshotFileKV, hd] at hw
    exact (Option.some.inj hw).symm
  subst hweq
  refine ⟨rfl, m, ?_, fun q => rfl⟩
  rw [readSnapshotFileKV]
  rw [if_neg (by simp [List.length_append, u64leBytes])]
  rw [u64leBytes_append_drop]
  rw [fromSnapshotMachine]
  rw [fromSnapshotAux_writeSnapshot m [] dump.length dump hd
    (writeSnapshotMachine_length m dump hd)]
  rw [foldl_applyMutation_disjoint m [] hk (by simp)]
  rw [readU64le_u64leBytes _ _ he]
  simp

/-- C9, witness: the amended format at a concrete machine and epoch. -/
theorem snapshot_file_u64_roundtrip_witness :
    [3, 0, 0, 0, 0, 0, 0, 0] = u64leBytes 3 ++ [] ∧
    ∃ m2, readSnapshotFileKV [3, 0, 0, 0, 0, 0, 0, 0] = some (m2, 3) ∧
      ∀ q, queryState m2 q = queryState [] q :=
  snapshot_file_u64_roundtrip [] 3 [] [3, 0, 0, 0, 0, 0, 0, 0]
    (by decide) (by decide) rfl rfl

/-! ## C10: absent key vs empty value -/

theorem mapLookup_mapInsert (m : StorageMachine) (k v q : Bytes) :
    mapLookup (mapInsert m k v) q = if q = k then some v else mapLookup m q := by
  induction m with
  | nil =>
    by_cases h : q = k
    · simp [mapInsert, mapLookup, h]
    · simp [mapInsert, mapLookup, h, Ne.symm h]
  | cons e rest ih =>
    obtain ⟨k2, v2⟩ := e
    by_cases h2 : k2 = k
    · subst h2
      by_cases h : q = k2
      · simp [mapInsert, mapLookup, h]
      · simp [mapInsert, mapLookup, h, Ne.symm h]
    · by_cases h : q = k
      · subst h
        simp [mapInsert, mapLookup, h2, ih]
      · simp [mapInsert, mapLookup, h2, h, ih]

theorem queryState_mapInsert (m : StorageMachine) (k v q : Bytes) :
    queryState (mapInsert m k v) q = if q = k then v else queryState m q := by
  rw [queryState, mapLookup_mapInsert]
  by_cases h : q = k <;> simp [h, queryState]

theorem machineObsEq_apply (m1 m2 : StorageMachine) (s : SetRequest)
    (h : machineObsEq m1 m2) : machineObsEq (applyMutation m1 s) (applyMutation m2 s) := by
  intro q
  rw [applyMutation, applyMutation, queryState_mapInsert, queryState_mapInsert]
  by_cases hq : q = s.key <;> simp [hq, h q]

theorem runOps_obsEq (ops : List KvOp) :
    ∀ m1 m2, machineObsEq m1 m2 → runOps m1 ops = runOps m2 ops := by
  induction ops with
  | nil => intro m1 m2 _; rfl
  | cons op rest ih =>
    intro m1 m2 h
    cases op with
    | set k v =>
      rw [runOps, runOps]
      exact ih _ _ (machineObsEq_apply m1 m2 { key := k, value := v } h)
    | get k =>
      rw [runOps, runOps, h k, ih m1 m2 h]

/-- C10: querying a never-set key returns empty bytes, querying a key set to
the empty value returns empty bytes, observationally equal machines stay
indistinguishable under any apply/query sequence, and hence no operation
sequence separates an absent key from a key holding the empty value through
query results alone. -/
theorem kv_absent_vs_empty_indistinguishable :
    (∀ (m : StorageMachine) (k : Bytes), mapLookup m k = none → queryState m k = []) ∧
    (∀ (m : StorageMachine) (k : Bytes),
      queryState (applyMutation m { key := k, value := [] }) k = []) ∧
    (∀ m1 m2, machineObsEq m1 m2 → ∀ ops, runOps m1 ops = runOps m2 ops) ∧
    (∀ (m : StorageMachine) (k : Bytes), mapLookup m k = none →
      ∀ ops, runOps m ops = runOps (applyMutation m { key := k, value := [] }) ops) := by
  have habsent : ∀ (m : StorageMachine) (k : Bytes), mapLookup m k = none →
      queryState m k = [] := by
    intro m k h
    rw [queryState, h]
    rfl
  have hempty : ∀ (m : StorageMachine) (k : Bytes),
      queryState (applyMutation m { key := k, value := [] }) k = [] := by
    intro m k
    rw [applyMutation, queryState_mapInsert]
    simp
  refine ⟨habsent, hempty, fun m1 m2 h ops => runOps_obsEq ops m1 m2 h, ?_⟩
  intro m k h ops
  refine runOps_obsEq ops m _ ?_
  intro q
  rw [applyMutation, queryState_mapInsert]
  by_cases hq : q = k
  · subst hq
    simp [habsent m q h]
  · simp [hq]

/-- C10, witness: an absent key and a key set to the empty value produce the
same outputs on a concrete query sequence. -/
theorem kv_absent_vs_empty_witness :
    runOps [] [KvOp.get [1]] =
      runOps (applyMutation [] { key := [1], value := [] }) [KvOp.get [1]] :=
  kv_absent_vs_empty_indistinguishable.2.2.2 [] [1] (by decide) [KvOp.get [1]]

/-! ## C3/C4: recovery epoch validation and the final last-epoch check -/

theorem validateBlobEpoch_iff (e s : Nat) (last0 : Option Nat) :
    validateBlobEpoch e s last0 = true ↔
      (match last0 with
       | some last => e = last + 1
       | none => e ≤ s + 1) := by
  cases last0 with
  | none =>
    rw [validateBlobEpoch]
    by_cases h : e ≤ s + 1
    · simp [h]
    · simp [h]
  | some last =>
    rw [validateBlobEpoch]
    by_cases h : e = last + 1
    · simp [h]
    · have hne : (last + 1 != e) = true := by
        simp [bne]
        omega
      simp [hne]
      omega

theorem restoreAux_isSome_iff {U : Type} (s : Nat) :
    ∀ (blobs : List (U × Nat)) (last0 : Option Nat),
      (∃ r, restoreAux s last0 blobs = some r) ↔
        validEpochChain s last0 (blobs.map Prod.snd) := by
  intro blobs
  induction blobs with
  | nil =>
    intro last0
    simp [restoreAux, validEpochChain]
  | cons b rest ih =>
    intro last0
    obtain ⟨m, e⟩ := b
    rw [restoreAux]
    by_cases hv : validateBlobEpoch e s last0 = true
    · rw [if_pos hv]
      constructor
      · intro ⟨r, hr⟩
        cases hrest : restoreAux s (some e) rest with
        | none =>
          rw [hrest] at hr
          exact absurd hr (by simp)
        | some pr =>
          refine ⟨(validateBlobEpoch_iff e s last0).mp hv, ?_⟩
          exact (ih (some e)).mp ⟨pr, hrest⟩
      · intro ⟨_, hchain⟩
        obtain ⟨⟨props, last⟩, hr⟩ := (ih (some e)).mpr hchain
        rw [hr]
        exact ⟨_, rfl⟩
    · rw [if_neg hv]
      constructor
      · intro ⟨r, hr⟩
        exact absurd hr (by simp)
      · intro ⟨hcond, _⟩
        exact absurd ((validateBlobEpoch_iff e s last0).mpr (by exact hcond)) hv

theorem restoreAux_props {U : Type} (s : Nat) :
    ∀ (blobs : List (U × Nat)) (last0 : Option Nat) props last,
      restoreAux s last0 blobs = some (props, last) →
      props = blobs.filter (fun b => decide (s < b.2)) := by
  intro blobs
  induction blobs with
  | nil =>
    intro last0 props last h
    simp [restoreAux] at h
    obtain ⟨h1, h2⟩ := h
    subst h1
    simp
  | cons b rest ih =>
    intro last0 props last h
    obtain ⟨m, e⟩ := b
    rw [restoreAux] at h
    by_cases hv : validateBlobEpoch e s last0 = true
    · rw [if_pos hv] at h
      cases hrest : restoreAux s (some e) rest with
      | none =>
        rw [hrest] at h
        exact absurd h (by simp)
      | some pr =>
        obtain ⟨props2, last2⟩ := pr
        rw [hrest] at h
        have hp := (Prod.mk.injEq _ _ _ _).mp (Option.some.inj h)
        have hprops2 := ih (some e) props2 last2 hrest
        rw [List.filter_cons]
        by_cases he : s < e
        · rw [← hp.1, if_pos (show e > s from he), hprops2]
          simp [he]
        · rw [← hp.1, if_neg (show ¬e > s from he), hprops2]
          simp [he]
    · rw [if_neg hv] at h
      exact absurd h (by simp)

theorem restoreAux_lastEpoch {U : Type} (s : Nat) :
    ∀ (blobs : List (U × Nat)) (last0 : Option Nat) props last,
      restoreAux s last0 blobs = some (props, last) →
      last = (match (blobs.map Prod.snd).getLast? with
              | some e => some e
              | none => last0) := by
  intro blobs
  induction blobs with
  | nil =>
    intro last0 props last h
    simp [restoreAux] at h
    simp [h.2.symm]
  | cons b rest ih =>
    intro last0 props last h
    obtain ⟨m, e⟩ := b
    rw [restoreAux] at h
    by_cases hv : validateBlobEpoch e s last0 = true
    · rw [if_pos hv] at h
      cases hrest : restoreAux s (some e) rest with
      | none =>
        rw [hrest] at h
        exact absurd h (by simp)
      | some pr =>
        obtain ⟨props2, last2⟩ := pr
        rw [hrest] at h
        have hp := (Prod.mk.injEq _ _ _ _).mp (Option.some.inj h)
        have hlast2 := ih (some e) props2 last2 hrest
        rw [← hp.2, hlast2]
        cases rest with
        | nil => simp
        | cons b2 rest2 =>
          obtain ⟨m2, e2⟩ := b2
          simp only [List.map_cons, List.getLast?_cons_cons]
          cases hgl : (e2 :: List.map Prod.snd rest2).getLast? with
          | none =>
            have : (e2 :: List.map Prod.snd rest2) = [] := List.getLast?_eq_none_iff.mp hgl
            exact absurd this (by simp)
          | some x => rfl
    · rw [if_neg hv] at h
      exact absurd h (by simp)

/-- C3: during recovery, each blob after the first must continue the epoch
chain (`epoch = previous + 1`, else an error), the very first blob must
satisfy `epoch ≤ snapshot_epoch + 1` (else an error), and the proposals
forwarded to the machine and snapshot actors are exactly the blobs with
`epoch > snapshot_epoch`. -/
theorem journal_recovery_blob_validation {U : Type} (s : Nat) :
    (∀ e last, validateBlobEpoch e s (some last) = true ↔ e = last + 1) ∧
    (∀ e, validateBlobEpoch e s none = true ↔ e ≤ s + 1) ∧
    (∀ (blobs : List (U × Nat)) last0,
      (∃ r, restoreAux s last0 blobs = some r) ↔
        validEpochChain s last0 (blobs.map Prod.snd)) ∧
    (∀ (blobs : List (U × Nat)) last0 props last,
      restoreAux s last0 blobs = some (props, last) →
      props = blobs.filter (fun b => decide (s < b.2))) :=
  ⟨fun e last => validateBlobEpoch_iff e s (some last),
   fun e => validateBlobEpoch_iff e s none,
   restoreAux_isSome_iff s,
   restoreAux_props s⟩

/-- C3, witness: at snapshot epoch 1, the blob stream with epochs 1, 2, 3 is
accepted and exactly the mutations with epoch greater than 1 are forwarded. -/
theorem journal_recovery_blob_validation_witness :
    restoreAux (U := Nat) 1 none [(10, 1), (20, 2), (30, 3)] =
      some ([(20, 2), (30, 3)], some 3) ∧
    [(20, 2), (30, 3)] =
      ([(10, 1), (20, 2), (30, 3)] : List (Nat × Nat)).filter (fun b => decide (1 < b.2)) :=
  ⟨by decide,
   (journal_recovery_blob_validation (U := Nat) 1).2.2.2 [(10, 1), (20, 2), (30, 3)]
     none [(20, 2), (30, 3)] (some 3) (by decide)⟩

/-- C4, counterexample: with an empty journal and snapshot epoch 1, the code
accepts recovery and stores `persisted_epoch = 0`, although
`last_epoch = 0 < 1 = snapshot_epoch` — the claim says recovery must fail
whenever `last_epoch < snapshot_epoch`. -/
theorem recovery_empty_journal_cex :
    restoreJournal 1 ([] : List (Unit × Nat)) = some ([], 0) ∧ (0 : Nat) < 1 :=
  ⟨rfl, by omega⟩

/-- C4, amended: on the clean end of the journal, recovery fails exactly when
the journal contained at least one blob and its last epoch is below the
snapshot epoch (`0 < last_epoch < snapshot_epoch`); an empty journal is
accepted even under a newer snapshot, storing 0.  Only on success is
`last_epoch` (the last blob's epoch, or 0 with no blobs) returned as the
value stored into the `persisted_epoch` atomic. -/
theorem recovery_last_epoch_check {U : Type} (s : Nat) (blobs : List (U × Nat))
    (props : List (U × Nat)) (lastO : Option Nat)
    (h : restoreAux s none blobs = some (props, lastO)) :
    lastO.getD 0 = ((blobs.map Prod.snd).getLast?).getD 0 ∧
    (restoreJournal s blobs = none ↔ 0 < lastO.getD 0 ∧ lastO.getD 0 < s) ∧
    (∀ r, restoreJournal s blobs = some r → r = (props, lastO.getD 0)) := by
  refine ⟨?_, ?_, ?_⟩
  · rw [restoreAux_lastEpoch s blobs none props lastO h]
    cases hl : (blobs.map Prod.snd).getLast? <;> simp
  · rw [restoreJournal, h]
    dsimp only
    by_cases hc : lastO.getD 0 > 0 ∧ lastO.getD 0 < s
    · rw [if_pos hc]
      simp [hc]
    · rw [if_neg hc]
      exact iff_of_false (by simp) hc
  · intro r hr
    rw [restoreJournal, h] at hr
    dsimp only at hr
    by_cases hc : lastO.getD 0 > 0 ∧ lastO.getD 0 < s
    · rw [if_pos hc] at hr
      exact absurd hr (by simp)
    · rw [if_neg hc] at hr
      exact (Option.some.inj hr).symm

/-- C4, witness: the amended failure condition at a concrete journal whose
last epoch 1 is below snapshot epoch 2 — recovery fails there. -/
theorem recovery_last_epoch_check_witness :
    restoreJournal 2 ([((), 1)] : List (Unit × Nat)) = none :=
  ((recovery_last_epoch_check (U := Unit) 2 [((), 1)] [] (some 1) (by decide)).2.1).mpr
    ⟨by simp, by simp⟩

/-! ## C6: end-of-file handling while reading the journal -/

/-- C6: end of file exactly on a record boundary transparently advances the
reader to the next file; after the last file the reader ends iteration with
a fresh `JournalWriter`; end of file inside the 4-byte length prefix or
inside the blob body makes `read_blob` return an error (a truncated tail is
fatal); and a fully available blob is returned with the advanced reader. -/
theorem journal_reader_eof_handling :
    (∀ (g : Bytes) (rest : List Bytes),
      readBlobDir (some []) (g :: rest) = readBlobDir (some g) rest) ∧
    (readBlobDir (some []) [] = ReadBlobRes.endWriter) ∧
    (∀ files, readBlobDir none files = ReadBlobRes.endWriter) ∧
    (∀ (f : Bytes) (files : List Bytes), 0 < f.length → f.length < 4 →
      readBlobDir (some f) files = ReadBlobRes.ioError) ∧
    (∀ (f : Bytes) (files : List Bytes), 4 ≤ f.length →
      f.length - 4 < readU32le f →
      readBlobDir (some f) files = ReadBlobRes.ioError) ∧
    (∀ (f : Bytes) (files : List Bytes), 4 ≤ f.length →
      readU32le f ≤ f.length - 4 →
      readBlobDir (some f) files =
        ReadBlobRes.blob ((f.drop 4).take (readU32le f))
          (some ((f.drop 4).drop (readU32le f))) files) := by
  have htry : ∀ f : Bytes, 4 ≤ f.length → tryReadU32 f = .val (readU32le f) (f.drop 4) := by
    intro f hf
    cases f with
    | nil => simp at hf
    | cons x xs =>
      simp only [tryReadU32]
      rw [if_neg (by omega)]
  have htryErr : ∀ f : Bytes, 0 < f.length → f.length < 4 → tryReadU32 f = .ioError := by
    intro f h0 h4
    cases f with
    | nil => simp at h0
    | cons x xs =>
      simp only [tryReadU32]
      rw [if_pos h4]
  refine ⟨?_, rfl, fun files => rfl, ?_, ?_, ?_⟩
  · intro g rest
    rw [readBlobDir, readBlobDir]
    have hadv : readLenDir (some []) (g :: rest) = readLenDir (some g) rest := by
      simp only [readLenDir, readLenList]
      rfl
    rw [hadv]
  · intro f files h0 h4
    rw [readBlobDir]
    have hlen : readLenDir (some f) files = .ioError := by
      cases files with
      | nil =>
        simp only [readLenDir]
        rw [readLenList, htryErr f h0 h4]
      | cons g rest =>
        simp only [readLenDir]
        rw [readLenList, htryErr f h0 h4]
    rw [hlen]
  · intro f files h4 hshort
    rw [readBlobDir]
    have hlen : readLenDir (some f) files = .lenOk (readU32le f) (f.drop 4) files := by
      cases files with
      | nil =>
        simp only [readLenDir]
        rw [readLenList, htry f h4]
      | cons g rest =>
        simp only [readLenDir]
        rw [readLenList, htry f h4]
    rw [hlen]
    dsimp only
    have hdl : (f.drop 4).length = f.length - 4 := by simp
    rw [if_neg (by omega)]
  · intro f files h4 hfit
    rw [readBlobDir]
    have hlen : readLenDir (some f) files = .lenOk (readU32le f) (f.drop 4) files := by
      cases files with
      | nil =>
        simp only [readLenDir]
        rw [readLenList, htry f h4]
      | cons g rest =>
        simp only [readLenDir]
        rw [readLenList, htry f h4]
    rw [hlen]
    dsimp only
    have hdl : (f.drop 4).length = f.length - 4 := by simp
    rw [if_pos (by omega)]

/-- C6, witness: a file whose blob body is shorter than its length prefix
announces is an IO error, and an empty current file advances to the next. -/
theorem journal_reader_eof_handling_witness :
    readBlobDir (some [2, 0, 0, 0, 9]) [] = ReadBlobRes.ioError ∧
    readBlobDir (some []) ([1, 0, 0, 0, 7] :: []) =
      readBlobDir (some [1, 0, 0, 0, 7]) [] :=
  ⟨journal_reader_eof_handling.2.2.2.2.1 [2, 0, 0, 0, 9] [] (by decide) (by decide),
   journal_reader_eof_handling.1 [1, 0, 0, 0, 7] []⟩

/-! ## C8: disposing the oldest journal files -/

/-- C8, counterexample: the writer's `dispose_oldest_blobs(n)` first
subtracts the open file's blob count from `n`.  With one previous file of 2
blobs, an open file holding 1 blob and `n = 2`, the claim says the previous
file (cumulative count 2 ≤ n) is deleted, but the code deletes nothing. -/
theorem dispose_writer_budget_cex :
    disposeOldestWriter (fun _ => RemoveOutcome.ok) 1 [(0, 2)] 2 = some [(0, 2)] ∧
    2 ≤ 2 :=
  ⟨rfl, le_refl 2⟩

/-- C8, amended: `dispose_oldest(n)` on the journal writer subtracts the
open file's blob count from `n` and delegates the remainder to the base
(deleting nothing when `n` does not exceed that count); the base deletes
whole files from the oldest end while each file's blob count fits in the
remaining budget — so the remaining list is always a suffix of the original
(no file is partially truncated) with the removed prefix's cumulative count
within the budget; a file already absent on disk (`NotFound`) is treated as
removed, while any other IO error aborts. -/
theorem dispose_oldest_spec (fs : Nat → RemoveOutcome) :
    (∀ cur files n, n ≤ cur → disposeOldestWriter fs cur files n = some files) ∧
    (∀ cur files n, cur < n →
      disposeOldestWriter fs cur files n = disposeOldestBase fs files (n - cur)) ∧
    (∀ path count rest budget, count ≤ budget → fs path = RemoveOutcome.notFound →
      disposeOldestBase fs ((path, count) :: rest) budget =
        disposeOldestBase fs rest (budget - count)) ∧
    (∀ path count rest budget, count ≤ budget → fs path = RemoveOutcome.ok →
      disposeOldestBase fs ((path, count) :: rest) budget =
        disposeOldestBase fs rest (budget - count)) ∧
    (∀ path count rest budget, budget < count →
      disposeOldestBase fs ((path, count) :: rest) budget =
        some ((path, count) :: rest)) ∧
    (∀ path count rest budget, count ≤ budget → fs path = RemoveOutcome.otherError →
      disposeOldestBase fs ((path, count) :: rest) budget = none) ∧
    (∀ files budget rem, disposeOldestBase fs files budget = some rem →
      ∃ j, rem = files.drop j ∧
        ((files.take j).map Prod.snd).sum ≤ budget) := by
  refine ⟨?_, ?_, ?_, ?_, ?_, ?_, ?_⟩
  · intro cur files n h
    rw [disposeOldestWriter, if_neg (by omega)]
  · intro cur files n h
    rw [disposeOldestWriter, if_pos (by omega)]
  · intro path count rest budget hle hnf
    rw [disposeOldestBase, if_pos hle, hnf]
  · intro path count rest budget hle hok
    rw [disposeOldestBase, if_pos hle, hok]
  · intro path count rest budget hlt
    rw [disposeOldestBase, if_neg (by omega)]
  · intro path count rest budget hle herr
    rw [disposeOldestBase, if_pos hle, herr]
  · intro files
    induction files with
    | nil =>
      intro budget rem h
      refine ⟨0, ?_, by simp⟩
      simp [disposeOldestBase] at h
      simp [h.symm]
    | cons e rest ih =>
      intro budget rem h
      obtain ⟨path, count⟩ := e
      rw [disposeOldestBase] at h
      by_cases hle : count ≤ budget
      · rw [if_pos hle] at h
        cases hfs : fs path with
        | otherError =>
          rw [hfs] at h
          exact absurd h (by simp)
        | ok =>
          rw [hfs] at h
          obtain ⟨j, hj, hsum⟩ := ih (budget - count) rem h
          exact ⟨j + 1, by simpa using hj, by simp at hsum ⊢; omega⟩
        | notFound =>
          rw [hfs] at h
          obtain ⟨j, hj, hsum⟩ := ih (budget - count) rem h
          exact ⟨j + 1, by simpa using hj, by simp at hsum ⊢; omega⟩
      · rw [if_neg hle] at h
        refine ⟨0, ?_, by simp⟩
        simpa using h.symm

/-- C8, witness: the amended behavior at a concrete writer state (an open
file with 1 blob, previous files of 2 and 5 blobs, request 4): the remainder
3 lets the base remove the oldest file only. -/
theorem dispose_oldest_spec_witness :
    disposeOldestWriter (fun _ => RemoveOutcome.ok) 1 [(0, 2), (1, 5)] 4 =
      disposeOldestBase (fun _ => RemoveOutcome.ok) [(0, 2), (1, 5)] 3 ∧
    disposeOldestBase (fun _ => RemoveOutcome.ok) [(0, 2), (1, 5)] 3 = some [(1, 5)] :=
  ⟨(dispose_oldest_spec (fun _ => RemoveOutcome.ok)).2.1 1 [(0, 2), (1, 5)] 4 (by omega),
   by decide⟩

/-! ## C1: the journal actor's mutation-batch iteration -/

theorem processBatchAux_eq {U : Type} :
    ∀ (queue : List (JRequest U)) (batchSize processed : Nat) (request : JRequest U),
      processBatchAux batchSize request queue processed =
        (((request :: queue).take
            (min (max (batchSize - processed) 1) (queue.length + 1))).map
              (fun r => r.mutation),
         ((request :: queue).take
            (min (max (batchSize - processed) 1) (queue.length + 1))).map
              (fun r => r.notify),
         (request :: queue).drop
            (min (max (batchSize - processed) 1) (queue.length + 1))) := by
  intro queue
  induction queue with
  | nil =>
    intro bs p r
    have hk : min (max (bs - p) 1) (0 + 1) = 1 := by omega
    rw [processBatchAux]
    by_cases hp : p + 1 < bs
    · rw [if_pos hp]
      simp only [List.length_nil, hk]
      simp
    · rw [if_neg hp]
      simp only [List.length_nil, hk]
      simp
  | cons q rest ih =>
    intro bs p r
    rw [processBatchAux]
    by_cases hp : p + 1 < bs
    · rw [if_pos hp]
      rw [ih bs (p + 1) q]
      have hk : min (max (bs - p) 1) ((q :: rest).length + 1) =
          min (max (bs - (p + 1)) 1) (rest.length + 1) + 1 := by
        simp
        omega
      rw [hk]
      simp [List.take_succ_cons, List.drop_succ_cons]
    · rw [if_neg hp]
      have hk : min (max (bs - p) 1) ((q :: rest).length + 1) = 1 := by
        simp
        omega
      rw [hk]
      simp

/-- C1, counterexample: with `batch_size = 0` the drain loop still takes the
first (blockingly received) request — the body pushes before checking the
bound — so "at most `batch_size` requests are drained" fails at 0. -/
theorem journal_batch_size_zero_cex :
    (processRequestBatch 0 ({ mutation := 0, notify := 0 } : JRequest Nat) []).1.length = 1 ∧
    ¬((processRequestBatch 0 ({ mutation := 0, notify := 0 } : JRequest Nat) []).1.length
        ≤ 0) :=
  ⟨rfl, by decide⟩

/-- C1, amended: in a mutation-handling iteration of the journal actor's
serve loop, exactly `min (max batch_size 1) (queued + 1)` requests are
drained — at most `max batch_size 1` (the bound `batch_size` holds whenever
`batch_size ≥ 1`; the first request is taken before the bound is checked),
blocking only on the first; the i-th batched mutation is assigned epoch
`persisted_epoch + i`; the iteration's actions are: every blob appended,
then exactly one `persist()` call, then the `persisted_epoch` atomic
advanced by the batch length (release store), then every batch caller
notified, then each `Proposal` sent to the snapshot and machine actors. -/
theorem journal_serve_batch_spec {U : Type} (batchSize persistedEpoch : Nat)
    (first : JRequest U) (queue : List (JRequest U)) :
    (processRequestBatch batchSize first queue).1.length =
        min (max batchSize 1) (queue.length + 1) ∧
    (processRequestBatch batchSize first queue).1.length ≤ max batchSize 1 ∧
    (processRequestBatch batchSize first queue).1 =
      ((first :: queue).take (min (max batchSize 1) (queue.length + 1))).map
        (fun r => r.mutation) ∧
    (processRequestBatch batchSize first queue).2.1 =
      ((first :: queue).take (min (max batchSize 1) (queue.length + 1))).map
        (fun r => r.notify) ∧
    (processRequestBatch batchSize first queue).2.2 =
      (first :: queue).drop (min (max batchSize 1) (queue.length + 1)) ∧
    (∀ (muts : List U) (notifs : List Nat),
      (serveBatchIteration persistedEpoch muts notifs).2 =
        persistedEpoch + muts.length ∧
      (serveBatchIteration persistedEpoch muts notifs).1 =
        muts.enum.map (fun p => JEvent.append (persistedEpoch + 1 + p.1) p.2) ++
        [JEvent.persistCall] ++
        [JEvent.storeEpoch (persistedEpoch + muts.length)] ++
        notifs.map JEvent.notifyCaller ++
        muts.enum.flatMap (fun p =>
          [JEvent.sendSnapshot (persistedEpoch + 1 + p.1) p.2,
           JEvent.sendMachine (persistedEpoch + 1 + p.1) p.2]) ∧
      ((serveBatchIteration persistedEpoch muts notifs).1.countP
          (fun e => e.isPersist)) = 1) := by
  have hbatch := processBatchAux_eq queue batchSize 0 first
  have hlen : (processRequestBatch batchSize first queue).1.length =
      min (max batchSize 1) (queue.length + 1) := by
    rw [processRequestBatch, hbatch]
    simp only [Nat.sub_zero, List.length_map, List.length_take, List.length_cons]
    omega
  refine ⟨hlen, by rw [hlen]; omega, ?_, ?_, ?_, ?_⟩
  · rw [processRequestBatch, hbatch]
    simp
  · rw [processRequestBatch, hbatch]
    simp
  · rw [processRequestBatch, hbatch]
    simp
  · intro muts notifs
    refine ⟨by simp [serveBatchIteration], ?_, ?_⟩
    · rw [serveBatchIteration]
      simp only [List.map_map, List.flatMap, List.length_map, List.enum_length]
      rfl
    · rw [serveBatchIteration]
      dsimp only
      simp only [List.countP_append]
      have h1 : ((muts.enum.map (fun p => (p.2, persistedEpoch + 1 + p.1))).map
          (fun p => JEvent.append (U := U) p.2 p.1)).countP (fun e => e.isPersist) = 0 := by
        rw [List.countP_eq_zero]
        intro e he
        obtain ⟨x, _, rfl⟩ := List.mem_map.mp he
        simp [JEvent.isPersist]
      have h2 : (notifs.map (JEvent.notifyCaller (U := U))).countP
          (fun e => e.isPersist) = 0 := by
        rw [List.countP_eq_zero]
        intro e he
        obtain ⟨x, _, rfl⟩ := List.mem_map.mp he
        simp [JEvent.isPersist]
      have h3 : ((muts.enum.map (fun p => (p.2, persistedEpoch + 1 + p.1))).flatMap
          (fun p => [JEvent.sendSnapshot (U := U) p.2 p.1,
                     JEvent.sendMachine p.2 p.1])).countP (fun e => e.isPersist) = 0 := by
        rw [List.countP_eq_zero]
        intro e he
        obtain ⟨x, _, hx⟩ := List.mem_flatMap.mp he
        simp only [List.mem_cons, List.mem_singleton, List.not_mem_nil, or_false] at hx
        rcases hx with rfl | rfl
        · simp [JEvent.isPersist]
        · simp [JEvent.isPersist]
      rw [h1, h2, h3]
      simp [List.countP_cons, JEvent.isPersist]

/-! ## C2: the machine actor's dispatch -/

theorem mem_pushQuery {K : Type} (item y : QueryItem K) :
    ∀ q : List (QueryItem K), y ∈ pushQuery item q ↔ y = item ∨ y ∈ q := by
  intro q
  induction q with
  | nil => simp [pushQuery]
  | cons x xs ih =>
    rw [pushQuery]
    by_cases hle : x.minEpoch ≤ item.minEpoch
    · rw [if_pos hle]
      simp only [List.mem_cons, ih]
      tauto
    · rw [if_neg hle]
      simp only [List.mem_cons]

theorem pushQuery_pairwise {K : Type} (item : QueryItem K) :
    ∀ q : List (QueryItem K),
      List.Pairwise (fun a b => a.minEpoch ≤ b.minEpoch) q →
      List.Pairwise (fun a b => a.minEpoch ≤ b.minEpoch) (pushQuery item q) := by
  intro q
  induction q with
  | nil =>
    intro _
    simp [pushQuery]
  | cons x xs ih =>
    intro h
    obtain ⟨hx, hxs⟩ := List.pairwise_cons.mp h
    rw [pushQuery]
    by_cases hle : x.minEpoch ≤ item.minEpoch
    · rw [if_pos hle]
      rw [List.pairwise_cons]
      refine ⟨?_, ih hxs⟩
      intro y hy
      rcases (mem_pushQuery item y xs).mp hy with rfl | hmem
      · exact hle
      · exact hx y hmem
    · rw [if_neg hle]
      rw [List.pairwise_cons]
      refine ⟨?_, h⟩
      intro y hy
      rcases List.mem_cons.mp hy with rfl | hmem
      · omega
      · exact le_trans (by omega) (hx y hmem)

theorem drainQueue_eq {A K S : Type} (queryf : A → K → S) (machine : A) (epoch : Nat) :
    ∀ q : List (QueryItem K),
      List.Pairwise (fun a b => a.minEpoch ≤ b.minEpoch) q →
      drainQueue queryf machine epoch q =
        (q.filter (fun it => decide (epoch < it.minEpoch)),
         (q.filter (fun it => decide (it.minEpoch ≤ epoch))).map
           (fun it => ⟨it.resultId, it.query, it.minEpoch, queryf machine it.query⟩)) := by
  intro q
  induction q with
  | nil =>
    intro _
    rfl
  | cons x xs ih =>
    intro h
    obtain ⟨hx, hxs⟩ := List.pairwise_cons.mp h
    rw [drainQueue]
    by_cases hle : x.minEpoch ≤ epoch
    · rw [if_pos hle, ih hxs]
      rw [List.filter_cons, List.filter_cons]
      have h1 : ¬(epoch < x.minEpoch) := by omega
      simp [hle, h1]
    · rw [if_neg hle]
      have hall : ∀ y ∈ xs, epoch < y.minEpoch := by
        intro y hy
        have := hx y hy
        omega
      have h1 : epoch < x.minEpoch := by omega
      have hfilter1 :
          List.filter (fun it => decide (epoch < it.minEpoch)) (x :: xs) = x :: xs := by
        rw [List.filter_eq_self.mpr]
        intro y hy
        rcases List.mem_cons.mp hy with rfl | hmem
        · simp [h1]
        · simp [hall y hmem]
      have hfilter2 :
          List.filter (fun it => decide (it.minEpoch ≤ epoch)) (x :: xs) = [] := by
        rw [List.filter_eq_nil_iff.mpr]
        intro y hy
        rcases List.mem_cons.mp hy with rfl | hmem
        · simp
          omega
        · have := hall y hmem
          simp
          omega
      rw [hfilter1, hfilter2]
      rfl

theorem take_append_cons {U : Type} :
    ∀ (xs : List U) (y : U) (zs : List U),
      (xs ++ y :: zs).take (xs.length + 1) = xs ++ [y] := by
  intro xs y zs
  induction xs with
  | nil => simp
  | cons a as iha => simp [iha]

theorem runMachineService_replies {A U K S : Type} (apply : A → U → A)
    (queryf : A → K → S) (m0 : A) :
    ∀ (msgs : List (MachineMsg U K)) (st : MState A K) (applied : List U),
      st.machine = List.foldl apply m0 applied →
      st.epoch = applied.length →
      List.Pairwise (fun a b => a.minEpoch ≤ b.minEpoch) st.queue →
      (∀ it ∈ st.queue, applied.length < it.minEpoch) →
      ∀ stF replies,
        runMachineService apply queryf st msgs = some (stF, replies) →
        ∀ r ∈ replies, ∃ c, r.minEpoch ≤ c ∧
          r.status = queryf (List.foldl apply m0 ((applied ++ mutsOf msgs).take c))
            r.query := by
  intro msgs
  induction msgs with
  | nil =>
    intro st applied _ _ _ _ stF replies hrun r hr
    rw [runMachineService] at hrun
    have h2 := congrArg Prod.snd (Option.some.inj hrun)
    simp only at h2
    rw [← h2] at hr
    exact absurd hr (by simp)
  | cons msg msgs ih =>
    intro st applied hmach hepoch hpair hbound stF replies hrun r hr
    cases msg with
    | proposal mutation epoch =>
      rw [runMachineService] at hrun
      by_cases he : epoch = st.epoch + 1
      · subst he
        rw [handleProposal, if_pos rfl] at hrun
        dsimp only at hrun
        rw [drainQueue_eq queryf (apply st.machine mutation) (st.epoch + 1)
          st.queue hpair] at hrun
        dsimp only at hrun
        cases hrec : runMachineService apply queryf
            ⟨apply st.machine mutation, st.epoch + 1,
             st.queue.filter (fun it => decide (st.epoch + 1 < it.minEpoch))⟩ msgs with
        | none =>
          rw [hrec] at hrun
          exact absurd hrun (by simp)
        | some pr =>
          obtain ⟨stF2, rest⟩ := pr
          rw [hrec] at hrun
          have hrepl := congrArg Prod.snd (Option.some.inj hrun)
          simp only at hrepl
          rw [← hrepl] at hr
          rcases List.mem_append.mp hr with hfirst | hrest
          · obtain ⟨it, hitmem, rfl⟩ := List.mem_map.mp hfirst
            obtain ⟨hitq, hitle⟩ := List.mem_filter.mp hitmem
            refine ⟨applied.length + 1, ?_, ?_⟩
            · simp only at hitle ⊢
              rw [← hepoch]
              exact Nat.le_of_eq (rfl).symm |>.trans (by simp at hitle; omega)
            · simp only [mutsOf, take_append_cons, List.foldl_append, List.foldl_cons,
                List.foldl_nil]
              rw [hmach]
          · have hih := ih ⟨apply st.machine mutation, st.epoch + 1,
                st.queue.filter (fun it => decide (st.epoch + 1 < it.minEpoch))⟩
              (applied ++ [mutation])
              (by simp [List.foldl_append, hmach])
              (by simp [hepoch])
              (List.Pairwise.filter _ hpair)
              (by
                intro it hit
                obtain ⟨_, hdec⟩ := List.mem_filter.mp hit
                simp only [List.length_append, List.length_cons, List.length_nil]
                simp at hdec
                omega)
              stF2 rest hrec r hrest
            obtain ⟨c, hc1, hc2⟩ := hih
            refine ⟨c, hc1, ?_⟩
            rw [hc2]
            simp only [mutsOf, List.append_assoc, List.cons_append, List.nil_append]
      · rw [handleProposal, if_neg he] at hrun
        exact absurd hrun (by simp)
    | query q minEpoch resultId =>
      rw [runMachineService] at hrun
      by_cases hq : st.epoch ≥ minEpoch
      · rw [handleQuery, if_pos hq] at hrun
        dsimp only at hrun
        cases hrec : runMachineService apply queryf st msgs with
        | none =>
          rw [hrec] at hrun
          exact absurd hrun (by simp)
        | some pr =>
          obtain ⟨stF2, rest⟩ := pr
          rw [hrec] at hrun
          have hrepl := congrArg Prod.snd (Option.some.inj hrun)
          simp only at hrepl
          rw [← hrepl] at hr
          rcases List.mem_cons.mp hr with rfl | hrest
          · refine ⟨applied.length, by simp; omega, ?_⟩
            simp only [mutsOf, List.take_left, hmach]
          · obtain ⟨c, hc1, hc2⟩ :=
              ih st applied hmach hepoch hpair hbound stF2 rest hrec r hrest
            exact ⟨c, hc1, by rw [hc2]; simp [mutsOf]⟩
      · rw [handleQuery, if_neg hq] at hrun
        dsimp only at hrun
        cases hrec : runMachineService apply queryf
            { st with queue := pushQuery ⟨q, minEpoch, resultId⟩ st.queue } msgs with
        | none =>
          rw [hrec] at hrun
          exact absurd hrun (by simp)
        | some pr =>
          obtain ⟨stF2, rest⟩ := pr
          rw [hrec] at hrun
          have hrepl := congrArg Prod.snd (Option.some.inj hrun)
          simp only at hrepl
          rw [← hrepl] at hr
          simp only [List.nil_append] at hr
          obtain ⟨c, hc1, hc2⟩ :=
            ih { st with queue := pushQuery ⟨q, minEpoch, resultId⟩ st.queue } applied
              hmach hepoch
              (pushQuery_pairwise _ st.queue hpair)
              (by
                intro it hit
                rcases (mem_pushQuery _ it st.queue).mp hit with rfl | hmem
                · simp
                  omega
                · exact hbound it hmem)
              stF2 rest hrec r hr
          exact ⟨c, hc1, by rw [hc2]; simp [mutsOf]⟩

/-- C2: the machine actor panics on any proposal whose epoch is not
`current + 1`; on `current + 1` it applies the mutation, increments
`current`, and answers — in ascending `min_epoch` order, against the
post-apply machine — exactly the deferred queries with
`min_epoch ≤ current`; a query is answered immediately iff
`current ≥ min_epoch` and deferred onto the heap otherwise; and in any run
from the initial state every reply is computed from a machine state that
includes all mutations with epoch up to at least the query's `min_epoch`. -/
theorem machine_service_dispatch {A U K S : Type} (apply : A → U → A)
    (queryf : A → K → S) :
    (∀ (st : MState A K) (mutation : U) (epoch : Nat), epoch ≠ st.epoch + 1 →
      handleProposal apply queryf st mutation epoch = none) ∧
    (∀ (st : MState A K) (mutation : U),
      List.Pairwise (fun a b => a.minEpoch ≤ b.minEpoch) st.queue →
      handleProposal apply queryf st mutation (st.epoch + 1) =
        some (⟨apply st.machine mutation, st.epoch + 1,
               st.queue.filter (fun it => decide (st.epoch + 1 < it.minEpoch))⟩,
              (st.queue.filter (fun it => decide (it.minEpoch ≤ st.epoch + 1))).map
                (fun it => ⟨it.resultId, it.query, it.minEpoch,
                            queryf (apply st.machine mutation) it.query⟩)) ∧
      List.Pairwise (fun (a b : Reply K S) => a.minEpoch ≤ b.minEpoch)
        ((st.queue.filter (fun it => decide (it.minEpoch ≤ st.epoch + 1))).map
          (fun it => ⟨it.resultId, it.query, it.minEpoch,
                      queryf (apply st.machine mutation) it.query⟩))) ∧
    (∀ (st : MState A K) (q : K) (minEpoch resultId : Nat),
      (st.epoch ≥ minEpoch →
        handleQuery queryf st q minEpoch resultId =
          (st, [⟨resultId, q, minEpoch, queryf st.machine q⟩])) ∧
      (st.epoch < minEpoch →
        handleQuery queryf st q minEpoch resultId =
          ({ st with queue := pushQuery ⟨q, minEpoch, resultId⟩ st.queue }, []))) ∧
    (∀ (m0 : A) (msgs : List (MachineMsg U K)) stFinal replies,
      runMachineService apply queryf ⟨m0, 0, []⟩ msgs = some (stFinal, replies) →
      ∀ r ∈ replies, ∃ c, r.minEpoch ≤ c ∧
        r.status = queryf (List.foldl apply m0 ((mutsOf msgs).take c)) r.query) := by
  refine ⟨?_, ?_, ?_, ?_⟩
  · intro st mutation epoch he
    rw [handleProposal, if_neg he]
  · intro st mutation hpair
    constructor
    · rw [handleProposal, if_pos rfl]
      dsimp only
      rw [drainQueue_eq queryf (apply st.machine mutation) (st.epoch + 1) st.queue hpair]
    · refine List.Pairwise.map _ ?_ (List.Pairwise.filter _ hpair)
      intro a b hab
      exact hab
  · intro st q minEpoch resultId
    constructor
    · intro hge
      rw [handleQuery, if_pos hge]
    · intro hlt
      rw [handleQuery, if_neg (by omega)]
  · intro m0 msgs stFinal replies hrun r hr
    have := runMachineService_replies apply queryf m0 msgs ⟨m0, 0, []⟩ []
      rfl rfl (by simp) (by simp) stFinal replies hrun r hr
    simpa using this

/-- C2, witness: a run with one proposal (epoch 1) and one query
(`min_epoch = 1`) on a summing machine; the reply is computed from the
machine with the mutation applied. -/
theorem machine_service_dispatch_witness :
    ∃ c, (1 : Nat) ≤ c ∧
      (5 : Nat) = (fun (a : Nat) (_ : Unit) => a)
        (List.foldl (fun (a : Nat) (u : Nat) => a + u) 0
          ((mutsOf (U := Nat) (K := Unit)
            [MachineMsg.proposal 5 1, MachineMsg.query () 1 7]).take c)) () := by
  have hrun : runMachineService (fun (a : Nat) (u : Nat) => a + u)
      (fun (a : Nat) (_ : Unit) => a) ⟨0, 0, []⟩
      [MachineMsg.proposal 5 1, MachineMsg.query () 1 7] =
      some (⟨5, 1, []⟩, [⟨7, (), 1, 5⟩]) := by
    rfl
  have hr := (machine_service_dispatch (fun (a : Nat) (u : Nat) => a + u)
      (fun (a : Nat) (_ : Unit) => a)).2.2.2 0
      [MachineMsg.proposal 5 1, MachineMsg.query () 1 7]
      ⟨5, 1, []⟩ [⟨7, (), 1, 5⟩] hrun ⟨7, (), 1, 5⟩ (by simp)
  exact hr

end Ray
